import Mathlib

/-!
Verification of the entrolytics redis-client library: a shallow embedding of
`src/rate-limit.ts` and `src/EntrolyticsRedisClient.ts` in Lean 4, with
theorems settling the specification's claims about rate limiting, the
cache-through fetch protocol, soft-delete tombstones, JSON round-tripping and
the error-handling policy of the key-value surface.
-/

set_option maxHeartbeats 1000000

namespace RedisClientSpec


/-! ## Rate limiting (`src/rate-limit.ts`)

Timestamps and TypeScript numbers are modelled as `Int` (all arithmetic in the
source stays integral: `Math.floor(Date.now() / 1000)`, second counts).
The module-level `rateLimitStore : Map<string, number[]>` is modelled as an
association list threaded through each call; `Map.get`/`Map.set` keep the
first occurrence.  The 1%-probability cleanup (`Math.random() < 0.01`) is
modelled by an explicit boolean `doCleanup` standing for the random draw. -/

structure RateLimitConfig where
  bucket : String
  limit : Int
  window : Int
deriving Repr, DecidableEq

structure RateLimitResult where
  success : Bool
  limit : Int
  remaining : Int
  reset : Int
deriving Repr, DecidableEq

abbrev RateLimitStore := List (String × List Int)

def storeGet : RateLimitStore → String → Option (List Int)
  | [], _ => none
  | (k', v) :: rest, k => if k' = k then some v else storeGet rest k

def storeSet : RateLimitStore → String → List Int → RateLimitStore
  | [], k, v => [(k, v)]
  | (k', v') :: rest, k, v =>
    if k' = k then (k, v) :: rest else (k', v') :: storeSet rest k v

/-- `cleanupRateLimitStore` from `rate-limit.ts`: filter every key's
timestamp list by `ts > threshold`, dropping keys whose list becomes empty. -/
def cleanupRateLimitStore : RateLimitStore → Int → RateLimitStore
  | [], _ => []
  | (k, tss) :: rest, threshold =>
    let filtered := tss.filter (fun ts => decide (ts > threshold))
    if filtered.isEmpty then cleanupRateLimitStore rest threshold
    else (k, filtered) :: cleanupRateLimitStore rest threshold

/-- `inMemoryRateLimit` from `rate-limit.ts` (lines 107-147). -/
def inMemoryRateLimit (doCleanup : Bool) (store : RateLimitStore) (key : String)
    (config : RateLimitConfig) (now windowStart : Int) :
    RateLimitResult × RateLimitStore :=
  let timestamps := (storeGet store key).getD []
  let filtered := timestamps.filter (fun ts => decide (ts > windowStart))
  if (filtered.length : Int) ≥ config.limit then
    (⟨false, config.limit, 0, now + config.window⟩, storeSet store key filtered)
  else
    let updated := filtered ++ [now]
    let store1 := storeSet store key updated
    let store2 := if doCleanup then cleanupRateLimitStore store1 windowStart else store1
    (⟨true, config.limit, config.limit - (updated.length : Int), now + config.window⟩,
      store2)

/-! The distributed path: a per-key sorted set, entries `(score, value)`.
`zAdd` follows redis: an existing member has its score updated, a new member
is inserted. -/

abbrev ZSet := List (Int × String)

def zRemRangeByScore (z : ZSet) (lo hi : Int) : ZSet :=
  z.filter (fun e => !(decide (lo ≤ e.1) && decide (e.1 ≤ hi)))

def zAdd (z : ZSet) (score : Int) (value : String) : ZSet :=
  if z.any (fun e => decide (e.2 = value)) then
    z.map (fun e => if e.2 = value then (score, value) else e)
  else z ++ [(score, value)]

structure ZSetState where
  entries : ZSet
  ttl : Option Int
deriving Repr, DecidableEq

/-- The four-command transaction of the distributed `rateLimit` path
(`rate-limit.ts` lines 174-210): purge scores in `[0, windowStart]`, count,
add `(now, token)` where `token` stands for the random uniqueness value, set
the key expiry to `window`; then the decision on the pre-add count. -/
def redisSlidingWindow (z : ZSetState) (token : String) (config : RateLimitConfig)
    (now : Int) : RateLimitResult × ZSetState :=
  let windowStart := now - config.window
  let purged := zRemRangeByScore z.entries 0 windowStart
  let count : Int := purged.length
  let added := zAdd purged now token
  let final : ZSetState := ⟨added, some config.window⟩
  let remaining := max 0 (config.limit - count - 1)
  let reset := now + config.window
  if count ≥ config.limit then (⟨false, config.limit, 0, reset⟩, final)
  else (⟨true, config.limit, remaining, reset⟩, final)

/-- How the store behaves for one `rateLimit` call: client absent or not
connected, transaction succeeds against sorted-set state `z`, or the
transaction raises. -/
inductive StoreBehavior where
  | disconnected
  | txnOk (z : ZSetState)
  | txnFail
deriving Repr, DecidableEq

structure RateLimitOutcome where
  result : RateLimitResult
  localStore : RateLimitStore
  redis : Option ZSetState
  loggedError : Bool
deriving Repr, DecidableEq

def rateLimitKey (config : RateLimitConfig) (identifier : String) : String :=
  "ratelimit:" ++ config.bucket ++ ":" ++ identifier

/-- `rateLimit` from `rate-limit.ts` (lines 159-218): distributed sliding
window when the transaction runs; on a raised transaction the error is logged
and the call falls through to `inMemoryRateLimit`; same fallback when no
connected client. -/
def rateLimit (beh : StoreBehavior) (identifier : String) (config : RateLimitConfig)
    (now : Int) (token : String) (doCleanup : Bool) (localStore : RateLimitStore) :
    RateLimitOutcome :=
  let key := rateLimitKey config identifier
  let windowStart := now - config.window
  match beh with
  | .txnOk z =>
    let r := redisSlidingWindow z token config now
    ⟨r.1, localStore, some r.2, false⟩
  | .txnFail =>
    let r := inMemoryRateLimit doCleanup localStore key config now windowStart
    ⟨r.1, r.2, none, true⟩
  | .disconnected =>
    let r := inMemoryRateLimit doCleanup localStore key config now windowStart
    ⟨r.1, r.2, none, false⟩

/-- The `!client` branch of `rateLimitSimple` (`rate-limit.ts` lines 236-252):
an in-memory sliding-window check on the shared map under `simple:` +
identifier.  On the limited path the store is left untouched; no cleanup ever
runs on this path. -/
def rateLimitSimpleLocal (store : RateLimitStore) (identifier : String)
    (limit windowSeconds now : Int) : Bool × RateLimitStore :=
  let key := "simple:" ++ identifier
  let windowStart := now - windowSeconds
  let timestamps := ((storeGet store key).getD []).filter (fun ts => decide (ts > windowStart))
  if (timestamps.length : Int) ≥ limit then (true, store)
  else (false, storeSet store key (timestamps ++ [now]))

/-- The `!client` branch of `createRateLimiter(...).getRemaining`
(`rate-limit.ts` lines 289-299).  The source only reads the map: the filtered
copy is local, and nothing is written back, so the store component of the
result is the input store. -/
def getRemainingLocal (store : RateLimitStore) (identifier : String)
    (config : RateLimitConfig) (now : Int) : Int × RateLimitStore :=
  let key := rateLimitKey config identifier
  let timestamps := (storeGet store key).getD []
  let windowStart := now - config.window
  let validTimestamps := timestamps.filter (fun ts => decide (ts > windowStart))
  (max 0 (config.limit - (validTimestamps.length : Int)), store)

/-! ## JSON values and the `JSON.stringify` / `JSON.parse` pair

The cache layer serializes every stored value with `JSON.stringify` and
parses it back with `JSON.parse` on read (`EntrolyticsRedisClient.ts`,
`set` line 219 / `get` lines 157-161).  Structured values are modelled by
`Json` (numbers as `Int`: every number the library itself stores is
integral).  `JSON.stringify` is modelled character-for-character, including
its escaping of `"`, `\` and control characters; `JSON.parse` is modelled by
a recursive-descent reader of the same grammar. -/

inductive Json where
  | null : Json
  | bool (b : Bool) : Json
  | num (n : Int) : Json
  | str (s : String) : Json
  | arr (items : List Json) : Json
  | obj (fields : List (String × Json)) : Json
deriving Repr

/-- The tombstone sentinel (`EntrolyticsRedisClient.ts` line 6). -/
def DELETED : String := "__DELETED__"

def lbrace : Char := Char.ofNat 123

def rbrace : Char := Char.ofNat 125

def hexDigitChar (n : Nat) : Char :=
  if n < 10 then Char.ofNat (48 + n) else Char.ofNat (87 + n)

/-- The `\u00XX` escape body for a control character code `n < 32`. -/
def uEscape (n : Nat) : List Char :=
  '\\' :: 'u' :: '0' :: '0' :: hexDigitChar (n / 16) :: [hexDigitChar (n % 16)]

/-- `JSON.stringify` escaping of one string character. -/
def escapeChar (c : Char) : List Char :=
  if c = '"' then ['\\', '"']
  else if c = '\\' then ['\\', '\\']
  else if c.toNat = 8 then ['\\', 'b']
  else if c.toNat = 9 then ['\\', 't']
  else if c.toNat = 10 then ['\\', 'n']
  else if c.toNat = 12 then ['\\', 'f']
  else if c.toNat = 13 then ['\\', 'r']
  else if c.toNat < 32 then uEscape c.toNat
  else [c]

def escapeList : List Char → List Char
  | [] => []
  | c :: rest => escapeChar c ++ escapeList rest

def serializeString (s : List Char) : List Char :=
  '"' :: (escapeList s ++ ['"'])

def natToRevDigits (n : Nat) : List Nat :=
  if h : n = 0 then [] else (n % 10) :: natToRevDigits (n / 10)
termination_by n
decreasing_by exact Nat.div_lt_self (Nat.pos_of_ne_zero h) (by norm_num)

def digitChar10 (d : Nat) : Char := Char.ofNat (48 + d)

def natToChars (n : Nat) : List Char :=
  if n = 0 then ['0'] else (natToRevDigits n).reverse.map digitChar10

def intToChars (i : Int) : List Char :=
  if i < 0 then '-' :: natToChars i.natAbs else natToChars i.toNat

mutual

def serialize : Json → List Char
  | .null => "null".data
  | .bool true => "true".data
  | .bool false => "false".data
  | .num n => intToChars n
  | .str s => serializeString s.data
  | .arr items => '[' :: (serializeItems items ++ [']'])
  | .obj fields => lbrace :: (serializeFields fields ++ [rbrace])

def serializeItems : List Json → List Char
  | [] => []
  | [v] => serialize v
  | v :: rest => serialize v ++ (',' :: serializeItems rest)

def serializeFields : List (String × Json) → List Char
  | [] => []
  | [(k, v)] => serializeString k.data ++ (':' :: serialize v)
  | (k, v) :: rest =>
    serializeString k.data ++ (':' :: serialize v) ++ (',' :: serializeFields rest)

end


def isDigitChar (c : Char) : Bool := 48 ≤ c.toNat && c.toNat ≤ 57

def startsDigit : List Char → Bool
  | [] => false
  | c :: _ => isDigitChar c

def takeDigits : List Char → List Char × List Char
  | [] => ([], [])
  | c :: rest =>
    if isDigitChar c then
      let p := takeDigits rest
      (c :: p.1, p.2)
    else ([], c :: rest)

def digitsToNat (ds : List Char) : Nat :=
  ds.foldl (fun acc c => acc * 10 + (c.toNat - 48)) 0

def parseNum (cs : List Char) : Option (Nat × List Char) :=
  let p := takeDigits cs
  if p.1.isEmpty then none else some (digitsToNat p.1, p.2)

def hexVal (c : Char) : Option Nat :=
  if 48 ≤ c.toNat ∧ c.toNat ≤ 57 then some (c.toNat - 48)
  else if 97 ≤ c.toNat ∧ c.toNat ≤ 102 then some (c.toNat - 87)
  else if 65 ≤ c.toNat ∧ c.toNat ≤ 70 then some (c.toNat - 55)
  else none

def unescapeChar (e : Char) : Option Char :=
  if e = '"' then some '"'
  else if e = '\\' then some '\\'
  else if e = '/' then some '/'
  else if e = 'b' then some (Char.ofNat 8)
  else if e = 'f' then some (Char.ofNat 12)
  else if e = 'n' then some (Char.ofNat 10)
  else if e = 'r' then some (Char.ofNat 13)
  else if e = 't' then some (Char.ofNat 9)
  else none

/-- Read a JSON string body (after the opening quote) up to the closing
quote, undoing the escapes; fuelled by the input length. -/
def parseStringBody : Nat → List Char → Option (List Char × List Char)
  | 0, _ => none
  | _ + 1, [] => none
  | f + 1, c :: rest =>
    if c = '"' then some ([], rest)
    else if c = '\\' then
      match rest with
      | [] => none
      | e :: rest2 =>
        if e = 'u' then
          match rest2 with
          | h1 :: h2 :: h3 :: h4 :: rest3 =>
            match hexVal h1, hexVal h2, hexVal h3, hexVal h4 with
            | some a, some b, some c2, some d =>
              (parseStringBody f rest3).map
                (fun p => (Char.ofNat (((a * 16 + b) * 16 + c2) * 16 + d) :: p.1, p.2))
            | _, _, _, _ => none
          | _ => none
        else
          match unescapeChar e with
          | some u => (parseStringBody f rest2).map (fun p => (u :: p.1, p.2))
          | none => none
    else (parseStringBody f rest).map (fun p => (c :: p.1, p.2))

mutual

def parseVal : Nat → List Char → Option (Json × List Char)
  | 0, _ => none
  | _ + 1, [] => none
  | f + 1, c :: rest =>
    if isDigitChar c then
      match parseNum (c :: rest) with
      | some (k, r) => some (.num (k : Int), r)
      | none => none
    else if c = '-' then
      match parseNum rest with
      | some (k, r) => some (.num (-(k : Int)), r)
      | none => none
    else if c = '"' then
      (parseStringBody (rest.length + 1) rest).map
        (fun p => (.str (String.mk p.1), p.2))
    else if c = 'n' then
      match rest with
      | 'u' :: 'l' :: 'l' :: r => some (.null, r)
      | _ => none
    else if c = 't' then
      match rest with
      | 'r' :: 'u' :: 'e' :: r => some (.bool true, r)
      | _ => none
    else if c = 'f' then
      match rest with
      | 'a' :: 'l' :: 's' :: 'e' :: r => some (.bool false, r)
      | _ => none
    else if c = '[' then
      match rest with
      | [] => none
      | d :: r2 =>
        if d = ']' then some (.arr [], r2)
        else (parseItems f (d :: r2)).map (fun p => (.arr p.1, p.2))
    else if c = lbrace then
      match rest with
      | [] => none
      | d :: r2 =>
        if d = rbrace then some (.obj [], r2)
        else (parseFields f (d :: r2)).map (fun p => (.obj p.1, p.2))
    else none

def parseItems : Nat → List Char → Option (List Json × List Char)
  | 0, _ => none
  | f + 1, cs =>
    match parseVal f cs with
    | none => none
    | some (v, r) =>
      match r with
      | ',' :: r2 => (parseItems f r2).map (fun p => (v :: p.1, p.2))
      | ']' :: r2 => some ([v], r2)
      | _ => none

def parseFields : Nat → List Char → Option (List (String × Json) × List Char)
  | 0, _ => none
  | f + 1, cs =>
    match cs with
    | '"' :: r =>
      (match parseStringBody (r.length + 1) r with
      | none => none
      | some (k, r2) =>
        match r2 with
        | ':' :: r3 =>
          (match parseVal f r3 with
          | none => none
          | some (v, r4) =>
            match r4 with
            | [] => none
            | c2 :: r5 =>
              if c2 = ',' then
                (parseFields f r5).map (fun p => ((String.mk k, v) :: p.1, p.2))
              else if c2 = rbrace then some ([(String.mk k, v)], r5)
              else none)
        | _ => none)
    | _ => none

end


def jsonStringify (v : Json) : String := String.mk (serialize v)

def jsonParse (s : String) : Option Json :=
  match parseVal (s.data.length + 1) s.data with
  | some (v, []) => some v
  | _ => none

/-- The body of `get` after a non-null read (`EntrolyticsRedisClient.ts`
lines 157-161): `JSON.parse`, falling back to the raw string when parsing
fails. -/
def parseOrRaw (data : String) : Json := (jsonParse data).getD (.str data)

/-! ### Round trip of the whole value grammar -/

mutual

def jsonFuel : Json → Nat
  | .arr items => 1 + itemsFuel items
  | .obj fields => 1 + fieldsFuel fields
  | _ => 1

def itemsFuel : List Json → Nat
  | [] => 0
  | v :: rest => 1 + max (jsonFuel v) (itemsFuel rest)

def fieldsFuel : List (String × Json) → Nat
  | [] => 0
  | kv :: rest => 1 + max (jsonFuel kv.2) (fieldsFuel rest)

end

/-! ## The cache client (`src/EntrolyticsRedisClient.ts`)

The remote store is modelled as an association list of prefixed keys to
entries carrying the raw stored string and an optional absolute expiry time
(redis `SETEX key n v` at time `t` ⇒ the key reads as absent from time
`t + n` on).  Each store-facing operation takes an explicit `fails` flag
standing for "the underlying store call (or the `connect` preceding it)
raised"; the TypeScript `try`/`catch` boundary is the `if fails` branch.
TTLs are passed as the numeric form of `TTLOption` (`extractTTL` of a number
is that number, of `undefined` is `undefined`, and `?? defaultTTL` supplies
the default). -/

structure StoreEntry where
  value : String
  expiresAt : Option Int
deriving Repr, DecidableEq

abbrev KVStore := List (String × StoreEntry)

structure ClientState where
  pfx : String
  defaultTTL : Int
  kv : KVStore
  hits : Nat
  misses : Nat
deriving Repr, DecidableEq

def kvFind : KVStore → String → Option StoreEntry
  | [], _ => none
  | (k', e) :: rest, k => if k' = k then some e else kvFind rest k

def kvSet : KVStore → String → StoreEntry → KVStore
  | [], k, e => [(k, e)]
  | (k', e') :: rest, k, e =>
    if k' = k then (k, e) :: rest else (k', e') :: kvSet rest k e

def kvRemove : KVStore → String → KVStore
  | [], _ => []
  | (k', e') :: rest, k =>
    if k' = k then kvRemove rest k else (k', e') :: kvRemove rest k

/-- Redis read semantics at time `t`: an expired entry reads as absent. -/
def kvGet (kv : KVStore) (k : String) (t : Int) : Option String :=
  match kvFind kv k with
  | none => none
  | some e =>
    match e.expiresAt with
    | none => some e.value
    | some ex => if t < ex then some e.value else none

namespace RC

/-- `get` (lines 150-167): prefixed read, `JSON.parse` with raw-string
fallback; any raised error is caught and converted to `null`. -/
def get (st : ClientState) (key : String) (t : Int) (fails : Bool) : Option Json :=
  if fails then none
  else
    match kvGet st.kv (st.pfx ++ key) t with
    | none => none
    | some data => some (parseOrRaw data)

/-- `set` (lines 215-232): JSON-serialize, apply the explicit TTL or
`defaultTTL`, `setEx` when positive and plain `set` otherwise; errors are
caught and become `null`. -/
def set (st : ClientState) (key : String) (value : Json) (ttl : Option Int)
    (t : Int) (fails : Bool) : ClientState × Option String :=
  if fails then (st, none)
  else
    let serialized := jsonStringify value
    let prefixedKey := st.pfx ++ key
    let ttlSeconds := ttl.getD st.defaultTTL
    if ttlSeconds > 0 then
      ({st with kv := kvSet st.kv prefixedKey ⟨serialized, some (t + ttlSeconds)⟩},
        some "OK")
    else
      ({st with kv := kvSet st.kv prefixedKey ⟨serialized, none⟩}, some "OK")

/-- `del` (lines 234-242): errors are caught and become `0`. -/
def del (st : ClientState) (key : String) (t : Int) (fails : Bool) :
    ClientState × Int :=
  if fails then (st, 0)
  else
    let prefixedKey := st.pfx ++ key
    let n : Int := if (kvGet st.kv prefixedKey t).isSome then 1 else 0
    ({st with kv := kvRemove st.kv prefixedKey}, n)

/-- `store` (lines 432-434) is `set`. -/
def store (st : ClientState) (key : String) (data : Json) (ttl : Option Int)
    (t : Int) (fails : Bool) : ClientState × Option String :=
  set st key data ttl t fails

/-- `fetch` (lines 401-427): the tombstone reads as a hit returning `null`;
any other non-null read is a hit; otherwise a miss invokes the query (third
component: whether it was invoked) and a non-null result is stored. -/
def fetch (st : ClientState) (key : String) (queryResult : Option Json)
    (ttl : Option Int) (t : Int) (getFails setFails : Bool) :
    Option Json × ClientState × Bool :=
  match get st key t getFails with
  | some (Json.str s) =>
    if s = DELETED then (none, {st with hits := st.hits + 1}, false)
    else (some (Json.str s), {st with hits := st.hits + 1}, false)
  | some v => (some v, {st with hits := st.hits + 1}, false)
  | none =>
    let st1 := {st with misses := st.misses + 1}
    match queryResult with
    | some d => (some d, (store st1 key d ttl t setFails).1, true)
    | none => (none, st1, true)

/-- `remove` (lines 439-441): soft delete writes the tombstone via `set`
with no explicit TTL; hard delete is `del`. -/
def remove (st : ClientState) (key : String) (soft : Bool) (t : Int)
    (fails : Bool) : ClientState :=
  if soft then (set st key (Json.str DELETED) none t fails).1
  else (del st key t fails).1

/-- `rateLimit` (lines 362-378), the simple counter limiter: `INCR`, expire
on first hit, limited iff the post-increment value exceeds `limit`; fail
open on any store error.  `count0`/`ttl0` are the counter's current value
(0 when absent, redis `INCR` semantics) and TTL state. -/
def rateLimit (count0 : Int) (ttl0 : Option Int) (limit windowSeconds : Int)
    (incrFails expireFails : Bool) : Bool × Int × Option Int :=
  if incrFails then (false, count0, ttl0)
  else
    let current := count0 + 1
    if current = 1 then
      if expireFails then (false, current, ttl0)
      else (decide (current > limit), current, some windowSeconds)
    else (decide (current > limit), current, ttl0)

/-! The remaining store-facing wrappers pass the underlying call's result
through; only the catch-branch default is their own logic.  The underlying
call is `.ok value` or `.error ()` (raised). -/

def incr (call : Except Unit Int) : Int :=
  match call with
  | .error _ => 0
  | .ok n => n

def incrBy (call : Except Unit Int) : Int :=
  match call with
  | .error _ => 0
  | .ok n => n

def decr (call : Except Unit Int) : Int :=
  match call with
  | .error _ => 0
  | .ok n => n

def decrBy (call : Except Unit Int) : Int :=
  match call with
  | .error _ => 0
  | .ok n => n

def expire (call : Except Unit Int) : Bool :=
  match call with
  | .error _ => false
  | .ok r => decide (r = 1)

def ttl (call : Except Unit Int) : Int :=
  match call with
  | .error _ => -1
  | .ok n => n

def existsKey (call : Except Unit Int) : Bool :=
  match call with
  | .error _ => false
  | .ok r => decide (r = 1)

def zAdd (call : Except Unit Int) : Int :=
  match call with
  | .error _ => 0
  | .ok n => n

def zRemRangeByScore (call : Except Unit Int) : Int :=
  match call with
  | .error _ => 0
  | .ok n => n

def zCard (call : Except Unit Int) : Int :=
  match call with
  | .error _ => 0
  | .ok n => n

def zRange (call : Except Unit (List String)) : List String :=
  match call with
  | .error _ => []
  | .ok l => l

end RC

/-! ### Cache operation sequences (for the soft-delete claims) -/

/-- One client-surface cache operation, as issued by a caller (the store is
reachable; each operation carries the time at which it runs). -/
inductive CacheOp where
  | opFetch (key : String) (queryResult : Option Json) (ttl : Option Int)
  | opStore (key : String) (value : Json) (ttl : Option Int)
  | opSet (key : String) (value : Json) (ttl : Option Int)
  | opDel (key : String)
  | opRemove (key : String) (soft : Bool)
  | opGet (key : String)

/-- Does the operation overwrite or delete `key`?  (`fetch` and `get` are
reads of their own key; a `fetch` of a different key may populate that other
key but never touches `key`.) -/
def CacheOp.writesKey (key : String) : CacheOp → Bool
  | .opStore k _ _ => decide (k = key)
  | .opSet k _ _ => decide (k = key)
  | .opDel k => decide (k = key)
  | .opRemove k _ => decide (k = key)
  | .opFetch _ _ _ => false
  | .opGet _ => false

def runOp (st : ClientState) (op : CacheOp) (t : Int) : ClientState :=
  match op with
  | .opFetch k q ttl => (RC.fetch st k q ttl t false false).2.1
  | .opStore k v ttl => (RC.store st k v ttl t false).1
  | .opSet k v ttl => (RC.set st k v ttl t false).1
  | .opDel k => (RC.del st k t false).1
  | .opRemove k soft => RC.remove st k soft t false
  | .opGet _ => st

def runOps (st : ClientState) : List (CacheOp × Int) → ClientState
  | [] => st
  | (op, t) :: rest => runOps (runOp st op t) rest

/-! ### Well-formed structured values (JS-representable: no duplicate keys) -/

def keysNodup : List String → Bool
  | [] => true
  | k :: ks => !(ks.contains k) && keysNodup ks

mutual

def Json.wf : Json → Bool
  | .null => true
  | .bool _ => true
  | .num _ => true
  | .str _ => true
  | .arr items => wfItems items
  | .obj fields => keysNodup (fields.map Prod.fst) && wfFields fields

def wfItems : List Json → Bool
  | [] => true
  | v :: rest => Json.wf v && wfItems rest

def wfFields : List (String × Json) → Bool
  | [] => true
  | kv :: rest => Json.wf kv.2 && wfFields rest

end

/-! ## Theorems -/

/-! ### Store lemmas -/

theorem storeGet_storeSet_self (s : RateLimitStore) (k : String) (v : List Int) :
    storeGet (storeSet s k v) k = some v := by
  induction s with
  | nil => simp [storeSet, storeGet]
  | cons e rest ih =>
    obtain ⟨k', v'⟩ := e
    by_cases h : k' = k
    · simp [storeSet, storeGet, h]
    · simp [storeSet, storeGet, h, ih]

theorem storeGet_storeSet_other (s : RateLimitStore) (k k' : String) (v : List Int)
    (h : k' ≠ k) : storeGet (storeSet s k v) k' = storeGet s k' := by
  have hne : k ≠ k' := fun hh => h hh.symm
  induction s with
  | nil => simp [storeSet, storeGet, hne]
  | cons e rest ih =>
    obtain ⟨k0, v0⟩ := e
    by_cases h0 : k0 = k
    · subst h0
      simp [storeSet, storeGet, hne]
    · simp only [storeSet, if_neg h0]
      by_cases h1 : k0 = k'
      · simp [storeGet, h1]
      · simp [storeGet, h1, ih]

/-- Every timestamp readable from a cleaned store is above the threshold. -/
theorem cleanup_mem_gt (s : RateLimitStore) (threshold : Int) (k : String) :
    ∀ ts ∈ (storeGet (cleanupRateLimitStore s threshold) k).getD [],
      threshold < ts := by
  induction s with
  | nil => intro ts h; simp [cleanupRateLimitStore, storeGet] at h
  | cons e rest ih =>
    obtain ⟨k0, tss⟩ := e
    intro ts h
    simp only [cleanupRateLimitStore] at h
    by_cases hemp : (tss.filter (fun ts => decide (ts > threshold))).isEmpty
    · rw [if_pos hemp] at h
      exact ih ts h
    · rw [if_neg hemp] at h
      by_cases hk : k0 = k
      · simp only [storeGet, if_pos hk, Option.getD_some] at h
        have := List.of_mem_filter h
        simpa using this
      · simp only [storeGet, if_neg hk] at h
        exact ih ts h

/-! ### Claims C1 and C2: the distributed limiter's decision and its fallback -/

/-- Claim C1: with the distributed limiter connected (the transaction runs
against sorted-set state `z`), `checkLimit` rejects (`success = false`,
`remaining = 0`) exactly when the member count taken after purging scores in
`[0, now - window]` but before adding the new member is at least `limit`;
otherwise it accepts with `remaining = max 0 (limit - count - 1)`; in both
cases `reset = now + window`. -/
theorem distributed_checkLimit_decision (z : ZSetState) (identifier token : String)
    (config : RateLimitConfig) (now : Int) (doCleanup : Bool)
    (localStore : RateLimitStore) :
    (rateLimit (.txnOk z) identifier config now token doCleanup localStore).result =
      (if ((zRemRangeByScore z.entries 0 (now - config.window)).length : Int) ≥
          config.limit then
        ⟨false, config.limit, 0, now + config.window⟩
      else
        ⟨true, config.limit,
          max 0 (config.limit -
            ((zRemRangeByScore z.entries 0 (now - config.window)).length : Int) - 1),
          now + config.window⟩) := by
  simp only [rateLimit, redisSlidingWindow]
  split
  · rfl
  · rfl

/-- Claim C2: when the store transaction raises, the distributed `checkLimit`
does not raise: it returns exactly the `RateLimitResult` the in-memory
tracker produces for this single request (the local store is updated by that
same fallback call), the failure is logged, and the result is well-formed
(`remaining ≥ 0`, correct `limit` and `reset`). -/
theorem distributed_fallback_on_failure (identifier token : String)
    (config : RateLimitConfig) (now : Int) (doCleanup : Bool)
    (localStore : RateLimitStore) :
    (rateLimit .txnFail identifier config now token doCleanup localStore).result =
      (inMemoryRateLimit doCleanup localStore (rateLimitKey config identifier)
        config now (now - config.window)).1
    ∧ (rateLimit .txnFail identifier config now token doCleanup localStore).localStore =
      (inMemoryRateLimit doCleanup localStore (rateLimitKey config identifier)
        config now (now - config.window)).2
    ∧ (rateLimit .txnFail identifier config now token doCleanup localStore).loggedError =
        true
    ∧ 0 ≤ (rateLimit .txnFail identifier config now token doCleanup
        localStore).result.remaining
    ∧ (rateLimit .txnFail identifier config now token doCleanup
        localStore).result.limit = config.limit
    ∧ (rateLimit .txnFail identifier config now token doCleanup
        localStore).result.reset = now + config.window := by
  refine ⟨rfl, rfl, rfl, ?_, ?_, ?_⟩
  · simp only [rateLimit, inMemoryRateLimit]
    split
    · exact le_refl 0
    · rename_i h
      push_neg at h
      simp only [List.length_append, List.length_cons, List.length_nil]
      push_cast
      omega
  · simp only [rateLimit, inMemoryRateLimit]
    split <;> rfl
  · simp only [rateLimit, inMemoryRateLimit]
    split <;> rfl

/-! ### Claim C3: the in-memory tracker's algorithm and the 4-call scenario -/

/-- Claim C3: for every key, config, `now` and `windowStart`, the local
tracker filters out stored timestamps `≤ windowStart`; if the filtered length
is at least `limit` it rejects with `remaining = 0` and stores the filtered
list back without appending, otherwise it appends `now` and accepts with
`remaining = limit - newLength`; `reset = now + window` in both cases.  With
policy `{bucket := "x", limit := 3, window := 10}` and identifier `"u1"`,
four calls in immediate succession (any outcomes of the random cleanup draw)
yield `[success, success, success, fail]`, the fourth with `remaining = 0`. -/
theorem local_tracker_spec_and_scenario :
    (∀ (doCleanup : Bool) (store : RateLimitStore) (key : String)
      (config : RateLimitConfig) (now windowStart : Int),
      ((inMemoryRateLimit doCleanup store key config now windowStart).1 =
        (if ((((storeGet store key).getD []).filter
              (fun ts => decide (ts > windowStart))).length : Int) ≥ config.limit then
          ⟨false, config.limit, 0, now + config.window⟩
        else
          ⟨true, config.limit,
            config.limit -
              (((((storeGet store key).getD []).filter
                (fun ts => decide (ts > windowStart))).length : Int) + 1),
            now + config.window⟩))
      ∧ (((((storeGet store key).getD []).filter
            (fun ts => decide (ts > windowStart))).length : Int) ≥ config.limit →
          (inMemoryRateLimit doCleanup store key config now windowStart).2 =
            storeSet store key
              (((storeGet store key).getD []).filter
                (fun ts => decide (ts > windowStart)))))
    ∧ (∀ c1 c2 c3 c4 : Bool,
        let o1 := rateLimit .disconnected "u1" ⟨"x", 3, 10⟩ 1000 "" c1 []
        let o2 := rateLimit .disconnected "u1" ⟨"x", 3, 10⟩ 1000 "" c2 o1.localStore
        let o3 := rateLimit .disconnected "u1" ⟨"x", 3, 10⟩ 1000 "" c3 o2.localStore
        let o4 := rateLimit .disconnected "u1" ⟨"x", 3, 10⟩ 1000 "" c4 o3.localStore
        o1.result.success = true ∧ o2.result.success = true ∧
        o3.result.success = true ∧ o4.result.success = false ∧
        o4.result.remaining = 0) := by
  constructor
  · intro doCleanup store key config now windowStart
    constructor
    · simp only [inMemoryRateLimit]
      by_cases h : ((((storeGet store key).getD []).filter
          (fun ts => decide (ts > windowStart))).length : Int) ≥ config.limit
      · rw [if_pos h, if_pos h]
      · rw [if_neg h, if_neg h]
        simp only [List.length_append, List.length_cons, List.length_nil,
          RateLimitResult.mk.injEq]
        refine ⟨trivial, trivial, ?_, trivial⟩
        push_cast
        ring
    · intro h
      simp only [inMemoryRateLimit]
      rw [if_pos h]
  · intro c1 c2 c3 c4
    cases c1 <;> cases c2 <;> cases c3 <;> cases c4 <;> decide

/-- Concrete instance discharging the reject-branch condition of the local
tracker spec: one stored in-window timestamp against `limit = 1` is stored
back filtered, unchanged. -/
theorem local_tracker_spec_and_scenario_witness :
    (inMemoryRateLimit false [("k", [5])] "k" ⟨"b", 1, 10⟩ 6 0).2 =
      storeSet [("k", [5])] "k"
        (((storeGet [("k", [5])] "k").getD []).filter (fun ts => decide (ts > 0))) :=
  (local_tracker_spec_and_scenario.1 false [("k", [5])] "k" ⟨"b", 1, 10⟩ 6 0).2
    (by decide)

/-! ### Claim C7: the window-store invariant after reads -/

/-- Claim C7 as stated is false: `getRemaining` only filters a local copy and
never writes the filtered list back, so after its read the stored sequence
for the key can still contain a timestamp `≤ now - window`.  Concretely,
with `ratelimit:x:u1 ↦ [0]`, `now = 100`, `window = 10`, the store after the
`getRemaining` read still holds the stale timestamp `0 ≤ 100 - 10`. -/
theorem getRemaining_leaves_stale_timestamp :
    (getRemainingLocal [("ratelimit:x:u1", [0])] "u1" ⟨"x", 3, 10⟩ 100).2 =
      [("ratelimit:x:u1", [0])]
    ∧ (0 : Int) ∈ (storeGet
        (getRemainingLocal [("ratelimit:x:u1", [0])] "u1" ⟨"x", 3, 10⟩ 100).2
        "ratelimit:x:u1").getD []
    ∧ (0 : Int) ≤ 100 - 10 := by
  decide

/-- Claim C7, amended: after every `checkLimit` read (the `inMemoryRateLimit`
path, which stores the filtered list back on both branches), the stored
sequence for the key contains only timestamps `> now - window`, provided the
window is positive; the `getRemaining` accessor leaves the store unchanged
(so the invariant holds after it only if it already held before). -/
theorem window_invariant_after_reads (doCleanup : Bool) (store : RateLimitStore)
    (identifier token : String) (config : RateLimitConfig) (now : Int)
    (h : 0 < config.window) :
    (∀ ts ∈ (storeGet
        (rateLimit .disconnected identifier config now token doCleanup store).localStore
        (rateLimitKey config identifier)).getD [],
      now - config.window < ts)
    ∧ (getRemainingLocal store identifier config now).2 = store := by
  refine ⟨?_, rfl⟩
  intro ts hts
  simp only [rateLimit, inMemoryRateLimit] at hts
  by_cases hc : ((((storeGet store (rateLimitKey config identifier)).getD []).filter
      (fun ts => decide (ts > now - config.window))).length : Int) ≥ config.limit
  · rw [if_pos hc] at hts
    simp only [storeGet_storeSet_self, Option.getD_some] at hts
    have := List.of_mem_filter hts
    simpa using this
  · rw [if_neg hc] at hts
    by_cases hdc : doCleanup
    · rw [if_pos hdc] at hts
      exact cleanup_mem_gt _ _ _ ts hts
    · rw [if_neg hdc] at hts
      simp only [storeGet_storeSet_self, Option.getD_some, List.mem_append,
        List.mem_cons, List.not_mem_nil, or_false] at hts
      rcases hts with hmem | rfl
      · have := List.of_mem_filter hmem
        simpa using this
      · omega

/-- Concrete instance of the amended C7 invariant: a fresh call with
`window = 10 > 0` leaves only in-window timestamps behind. -/
theorem window_invariant_after_reads_witness :
    (0 : Int) < (RateLimitConfig.mk "x" 3 10).window ∧
    ((∀ ts ∈ (storeGet
        (rateLimit .disconnected "u1" ⟨"x", 3, 10⟩ 100 "" false []).localStore
        (rateLimitKey ⟨"x", 3, 10⟩ "u1")).getD [],
      (100 : Int) - (RateLimitConfig.mk "x" 3 10).window < ts)
    ∧ (getRemainingLocal [] "u1" ⟨"x", 3, 10⟩ 100).2 = []) :=
  ⟨by decide, window_invariant_after_reads false [] "u1" "" ⟨"x", 3, 10⟩ 100 (by decide)⟩

/-! ### Claim C10: `rateLimitSimple` with a null client -/

/-- Claim C10: with a null client, `rateLimitSimple` performs an in-memory
sliding-window check on the shared map under `simple:` + identifier: it
returns `true` (limited) exactly when at least `limit` stored timestamps are
strictly greater than `now - windowSeconds`; otherwise it appends `now` and
returns `false` (the limited path leaves the store untouched); and the
probabilistic cleanup never runs on this path — every other key's entry is
left exactly as it was. -/
theorem rateLimitSimple_local_spec (store : RateLimitStore) (identifier : String)
    (limit windowSeconds now : Int) :
    ((rateLimitSimpleLocal store identifier limit windowSeconds now).1 = true ↔
      ((((storeGet store ("simple:" ++ identifier)).getD []).filter
        (fun ts => decide (ts > now - windowSeconds))).length : Int) ≥ limit)
    ∧ ((rateLimitSimpleLocal store identifier limit windowSeconds now).1 = false →
        (rateLimitSimpleLocal store identifier limit windowSeconds now).2 =
          storeSet store ("simple:" ++ identifier)
            ((((storeGet store ("simple:" ++ identifier)).getD []).filter
              (fun ts => decide (ts > now - windowSeconds))) ++ [now]))
    ∧ ((rateLimitSimpleLocal store identifier limit windowSeconds now).1 = true →
        (rateLimitSimpleLocal store identifier limit windowSeconds now).2 = store)
    ∧ (∀ k, k ≠ "simple:" ++ identifier →
        storeGet (rateLimitSimpleLocal store identifier limit windowSeconds now).2 k =
          storeGet store k) := by
  by_cases hc : ((((storeGet store ("simple:" ++ identifier)).getD []).filter
      (fun ts => decide (ts > now - windowSeconds))).length : Int) ≥ limit
  · refine ⟨?_, ?_, ?_, ?_⟩
    · simp only [rateLimitSimpleLocal]
      rw [if_pos hc]
      simp [hc]
    · intro hfalse
      simp only [rateLimitSimpleLocal] at hfalse
      rw [if_pos hc] at hfalse
      simp at hfalse
    · intro _
      simp only [rateLimitSimpleLocal]
      rw [if_pos hc]
    · intro k _
      simp only [rateLimitSimpleLocal]
      rw [if_pos hc]
  · refine ⟨?_, ?_, ?_, ?_⟩
    · simp only [rateLimitSimpleLocal]
      rw [if_neg hc]
      simp [hc]
    · intro _
      simp only [rateLimitSimpleLocal]
      rw [if_neg hc]
    · intro htrue
      simp only [rateLimitSimpleLocal] at htrue
      rw [if_neg hc] at htrue
      simp at htrue
    · intro k hk
      simp only [rateLimitSimpleLocal]
      rw [if_neg hc]
      exact storeGet_storeSet_other _ _ _ _ hk

/-- Concrete instance discharging the hypotheses of the C10 spec: an
unlimited call appends `now` under `simple:a` and leaves the unrelated key
`other` untouched. -/
theorem rateLimitSimple_local_spec_witness :
    (rateLimitSimpleLocal [("other", [7])] "a" 1 10 100).2 =
      storeSet [("other", [7])] "simple:a"
        ((((storeGet [("other", [7])] "simple:a").getD []).filter
          (fun ts => decide (ts > (100 : Int) - 10))) ++ [100])
    ∧ storeGet (rateLimitSimpleLocal [("other", [7])] "a" 1 10 100).2 "other" =
        storeGet [("other", [7])] "other" :=
  ⟨(rateLimitSimple_local_spec [("other", [7])] "a" 1 10 100).2.1 (by decide),
   (rateLimitSimple_local_spec [("other", [7])] "a" 1 10 100).2.2.2 "other" (by decide)⟩

/-! ### Round trip of the string escaper -/

theorem escapeChar_length_pos (c : Char) : 1 ≤ (escapeChar c).length := by
  unfold escapeChar
  split
  · simp
  · split
    · simp
    · split
      · simp
      · split
        · simp
        · split
          · simp
          · split
            · simp
            · split
              · simp
              · split
                · simp [uEscape]
                · simp

theorem escapeList_length (s : List Char) : s.length ≤ (escapeList s).length := by
  induction s with
  | nil => simp [escapeList]
  | cons c rest ih =>
    simp only [escapeList, List.length_append, List.length_cons]
    have := escapeChar_length_pos c
    omega

theorem hexVal_hexDigitChar (d : Nat) (h : d < 16) :
    hexVal (hexDigitChar d) = some d := by
  interval_cases d <;> rfl

theorem parseStringBody_escapeChar (c : Char) (f : Nat) (tail : List Char) :
    parseStringBody (f + 1) (escapeChar c ++ tail) =
      (parseStringBody f tail).map (fun p => (c :: p.1, p.2)) := by
  by_cases h1 : c = '"'
  · subst h1; rfl
  by_cases h2 : c = '\\'
  · subst h2; rfl
  by_cases h3 : c.toNat = 8
  · have hc : c = Char.ofNat 8 := by rw [← Char.ofNat_toNat c, h3]
    subst hc; rfl
  by_cases h4 : c.toNat = 9
  · have hc : c = Char.ofNat 9 := by rw [← Char.ofNat_toNat c, h4]
    subst hc; rfl
  by_cases h5 : c.toNat = 10
  · have hc : c = Char.ofNat 10 := by rw [← Char.ofNat_toNat c, h5]
    subst hc; rfl
  by_cases h6 : c.toNat = 12
  · have hc : c = Char.ofNat 12 := by rw [← Char.ofNat_toNat c, h6]
    subst hc; rfl
  by_cases h7 : c.toNat = 13
  · have hc : c = Char.ofNat 13 := by rw [← Char.ofNat_toNat c, h7]
    subst hc; rfl
  by_cases h8 : c.toNat < 32
  · have hesc : escapeChar c = uEscape c.toNat := by
      unfold escapeChar
      rw [if_neg h1, if_neg h2, if_neg h3, if_neg h4, if_neg h5, if_neg h6, if_neg h7,
        if_pos h8]
    rw [hesc]
    rw [show uEscape c.toNat =
      '\\' :: 'u' :: '0' :: '0' :: hexDigitChar (c.toNat / 16) ::
        [hexDigitChar (c.toNat % 16)] from rfl]
    have hx1 : hexVal (hexDigitChar (c.toNat / 16)) = some (c.toNat / 16) :=
      hexVal_hexDigitChar _ (by omega)
    have hx2 : hexVal (hexDigitChar (c.toNat % 16)) = some (c.toNat % 16) :=
      hexVal_hexDigitChar _ (by omega)
    simp +decide only [parseStringBody, List.append_eq, List.cons_append,
      List.nil_append, hx1, hx2, if_true, if_false, show hexVal '0' = some 0 from rfl]
    have hchar : Char.ofNat (c.toNat / 16 * 16 + c.toNat % 16) = c := by
      have hv : c.toNat / 16 * 16 + c.toNat % 16 = c.toNat := by omega
      rw [hv, Char.ofNat_toNat]
    have hchar2 : Char.ofNat (((0 * 16 + 0) * 16 + c.toNat / 16) * 16 + c.toNat % 16) = c := by
      have hv2 : ((0 * 16 + 0) * 16 + c.toNat / 16) * 16 + c.toNat % 16 = c.toNat := by
        omega
      rw [hv2, Char.ofNat_toNat]
    first
    | simp only [hchar]
    | simp only [hchar2]
  · have hesc : escapeChar c = [c] := by
      unfold escapeChar
      rw [if_neg h1, if_neg h2, if_neg h3, if_neg h4, if_neg h5, if_neg h6, if_neg h7,
        if_neg h8]
    rw [hesc]
    simp only [parseStringBody, List.cons_append, List.nil_append]
    rw [if_neg (fun hh => h1 hh), if_neg (fun hh => h2 hh)]
    rfl

theorem parseStringBody_escapeList (s : List Char) :
    ∀ (f : Nat) (rest : List Char), s.length < f →
      parseStringBody f (escapeList s ++ ('"' :: rest)) = some (s, rest) := by
  induction s with
  | nil =>
    intro f rest hf
    match f, hf with
    | f + 1, _ => rfl
  | cons c s ih =>
    intro f rest hf
    match f, hf with
    | f + 1, hf =>
      simp only [escapeList, List.append_assoc]
      rw [parseStringBody_escapeChar]
      rw [ih f rest (by simpa using Nat.lt_of_succ_lt_succ hf)]
      rfl

/-! ### Round trip of the decimal number writer -/

theorem natToRevDigits_mem_lt (n : Nat) : ∀ d ∈ natToRevDigits n, d < 10 := by
  induction n using Nat.strong_induction_on with
  | _ n ih =>
    rw [natToRevDigits]
    split
    · simp
    · rename_i h
      intro d hd
      rcases List.mem_cons.mp hd with rfl | hmem
      · exact Nat.mod_lt _ (by norm_num)
      · exact ih (n / 10) (Nat.div_lt_self (Nat.pos_of_ne_zero h) (by norm_num)) d hmem

theorem digitChar10_toNat (d : Nat) (h : d < 10) : (digitChar10 d).toNat = 48 + d := by
  interval_cases d <;> rfl

theorem isDigitChar_digitChar10 (d : Nat) (h : d < 10) :
    isDigitChar (digitChar10 d) = true := by
  interval_cases d <;> rfl

theorem natToChars_ne_nil (n : Nat) : natToChars n ≠ [] := by
  unfold natToChars
  split
  · simp
  · rename_i h
    have hne : natToRevDigits n ≠ [] := by
      rw [natToRevDigits]
      split
      · rename_i h0; exact absurd h0 h
      · simp
    intro hmap
    rw [List.map_eq_nil_iff, List.reverse_eq_nil_iff] at hmap
    exact hne hmap

theorem natToChars_all_digits (n : Nat) : ∀ c ∈ natToChars n, isDigitChar c = true := by
  unfold natToChars
  split
  · intro c hc
    simp only [List.mem_singleton] at hc
    subst hc
    rfl
  · intro c hc
    simp only [List.mem_map, List.mem_reverse] at hc
    obtain ⟨d, hd, rfl⟩ := hc
    exact isDigitChar_digitChar10 d (natToRevDigits_mem_lt n d hd)

theorem takeDigits_append (digits rest : List Char)
    (hds : ∀ c ∈ digits, isDigitChar c = true)
    (hrest : startsDigit rest = false) :
    takeDigits (digits ++ rest) = (digits, rest) := by
  induction digits with
  | nil =>
    simp only [List.nil_append]
    cases rest with
    | nil => rfl
    | cons c r =>
      simp only [startsDigit] at hrest
      simp [takeDigits, hrest]
  | cons c ds ih =>
    have hc : isDigitChar c = true := hds c (by simp)
    simp only [List.cons_append, takeDigits, hc, if_true, List.append_eq]
    rw [ih (fun x hx => hds x (by simp [hx]))]

theorem foldl_digits (n : Nat) (hn : n ≠ 0) : ∀ a : Nat,
    List.foldl (fun acc c => acc * 10 + (c.toNat - 48)) a
      ((natToRevDigits n).reverse.map digitChar10) =
      a * 10 ^ (natToRevDigits n).length + n := by
  induction n using Nat.strong_induction_on with
  | _ n ih =>
    intro a
    have hstep : natToRevDigits n = (n % 10) :: natToRevDigits (n / 10) := by
      rw [natToRevDigits]
      exact dif_neg hn
    rw [hstep]
    simp only [List.reverse_cons, List.map_append, List.map_cons, List.map_nil,
      List.foldl_append, List.foldl_cons, List.foldl_nil, List.length_cons]
    rw [digitChar10_toNat (n % 10) (Nat.mod_lt _ (by norm_num))]
    by_cases h0 : n / 10 = 0
    · have hz : natToRevDigits (n / 10) = [] := by
        rw [natToRevDigits]
        exact dif_pos h0
      rw [hz]
      simp only [List.reverse_nil, List.map_nil, List.foldl_nil, List.length_nil,
        pow_succ, pow_zero, one_mul]
      omega
    · rw [ih (n / 10) (Nat.div_lt_self (Nat.pos_of_ne_zero hn) (by norm_num)) h0 a]
      have h10 : n / 10 * 10 + n % 10 = n := by omega
      have hsub : 48 + n % 10 - 48 = n % 10 := by omega
      rw [hsub, pow_succ]
      calc (a * 10 ^ (natToRevDigits (n / 10)).length + n / 10) * 10 + n % 10
          = a * (10 ^ (natToRevDigits (n / 10)).length * 10) +
              (n / 10 * 10 + n % 10) := by ring
        _ = a * (10 ^ (natToRevDigits (n / 10)).length * 10) + n := by rw [h10]

theorem digitsToNat_natToChars (n : Nat) : digitsToNat (natToChars n) = n := by
  by_cases h : n = 0
  · subst h; rfl
  · unfold natToChars digitsToNat
    rw [if_neg h]
    have := foldl_digits n h 0
    simpa using this

theorem parseNum_natToChars (n : Nat) (rest : List Char)
    (h : startsDigit rest = false) :
    parseNum (natToChars n ++ rest) = some (n, rest) := by
  unfold parseNum
  rw [takeDigits_append _ _ (natToChars_all_digits n) h]
  have hemp : (natToChars n).isEmpty = false := by
    cases hnc : natToChars n with
    | nil => exact absurd hnc (natToChars_ne_nil n)
    | cons c t => rfl
  simp only [hemp, Bool.false_eq_true, if_false, digitsToNat_natToChars]


theorem serialize_head_ne (v : Json) :
    ∃ c t, serialize v = c :: t ∧ ¬(c = ']') := by
  cases v with
  | null => exact ⟨'n', _, rfl, by decide⟩
  | bool b =>
    cases b with
    | false => exact ⟨'f', _, rfl, by decide⟩
    | true => exact ⟨'t', _, rfl, by decide⟩
  | num n =>
    by_cases h : n < 0
    · refine ⟨'-', natToChars n.natAbs, ?_, by decide⟩
      simp [serialize, intToChars, h]
    · obtain ⟨c, t, hct⟩ : ∃ c t, natToChars n.toNat = c :: t := by
        cases hnc : natToChars n.toNat with
        | nil => exact absurd hnc (natToChars_ne_nil _)
        | cons c t => exact ⟨c, t, rfl⟩
      refine ⟨c, t, ?_, ?_⟩
      · simp [serialize, intToChars, h, hct]
      · have hd : isDigitChar c = true :=
          natToChars_all_digits _ c (by rw [hct]; exact List.mem_cons_self _ _)
        intro hce
        subst hce
        exact absurd hd (by decide)
  | str s => exact ⟨'"', _, rfl, by decide⟩
  | arr items => exact ⟨'[', _, rfl, by decide⟩
  | obj fields => exact ⟨lbrace, _, rfl, by decide⟩

theorem serializeItems_cons_ex (v : Json) (vs : List Json) :
    ∃ X, serializeItems (v :: vs) = serialize v ++ X := by
  cases vs with
  | nil => exact ⟨[], by simp [serializeItems]⟩
  | cons w ws => exact ⟨',' :: serializeItems (w :: ws), rfl⟩

theorem serializeFields_head (k : String) (v : Json) (fs : List (String × Json)) :
    ∃ Z, serializeFields ((k, v) :: fs) = '"' :: Z := by
  cases fs with
  | nil => exact ⟨_, rfl⟩
  | cons f2 fs2 => exact ⟨_, rfl⟩

mutual

theorem parseVal_serialize (v : Json) : ∀ (f : Nat) (rest : List Char),
    jsonFuel v ≤ f → startsDigit rest = false →
    parseVal f (serialize v ++ rest) = some (v, rest) := by
  cases v with
  | null =>
    intro f rest hf _
    cases f with
    | zero => simp [jsonFuel] at hf
    | succ f => rfl
  | bool b =>
    intro f rest hf _
    cases f with
    | zero => simp [jsonFuel] at hf
    | succ f => cases b <;> rfl
  | num n =>
    intro f rest hf hrest
    cases f with
    | zero => simp [jsonFuel] at hf
    | succ f =>
      by_cases hneg : n < 0
      · have hser : serialize (Json.num n) ++ rest =
            '-' :: (natToChars n.natAbs ++ rest) := by
          simp [serialize, intToChars, hneg]
        rw [hser]
        have hpn : parseNum (natToChars n.natAbs ++ rest) = some (n.natAbs, rest) :=
          parseNum_natToChars _ _ hrest
        simp +decide only [parseVal, hpn, if_true, if_false]
        have hval : (-(n.natAbs : Int)) = n := by omega
        rw [hval]
      · obtain ⟨c, t, hct⟩ : ∃ c t, natToChars n.toNat = c :: t := by
          cases hnc : natToChars n.toNat with
          | nil => exact absurd hnc (natToChars_ne_nil _)
          | cons c t => exact ⟨c, t, rfl⟩
        have hd : isDigitChar c = true :=
          natToChars_all_digits _ c (by rw [hct]; exact List.mem_cons_self _ _)
        have hser : serialize (Json.num n) ++ rest = c :: (t ++ rest) := by
          simp [serialize, intToChars, hneg, hct]
        rw [hser]
        have hpn : parseNum (c :: (t ++ rest)) = some (n.toNat, rest) := by
          have hback : c :: (t ++ rest) = natToChars n.toNat ++ rest := by
            rw [hct, List.cons_append]
          rw [hback]
          exact parseNum_natToChars _ _ hrest
        simp +decide only [parseVal, hd, hpn, if_true, if_false]
        have hval : ((n.toNat : Int)) = n := by omega
        rw [hval]
  | str s =>
    intro f rest hf hrest
    cases f with
    | zero => simp [jsonFuel] at hf
    | succ f =>
      have hser : serialize (Json.str s) ++ rest =
          '"' :: (escapeList s.data ++ ('"' :: rest)) := by
        simp [serialize, serializeString, List.append_assoc]
      rw [hser]
      have hlen : s.data.length < (escapeList s.data ++ ('"' :: rest)).length + 1 := by
        have := escapeList_length s.data
        simp only [List.length_append, List.length_cons]
        omega
      have hsb := parseStringBody_escapeList s.data
        ((escapeList s.data ++ ('"' :: rest)).length + 1) rest hlen
      simp +decide only [parseVal, hsb, if_true, if_false, Option.map_some']
      try rfl
  | arr items =>
    intro f rest hf hrest
    cases f with
    | zero => simp [jsonFuel] at hf
    | succ f =>
      cases items with
      | nil => rfl
      | cons v vs =>
        obtain ⟨c, t, hct, hc⟩ := serialize_head_ne v
        obtain ⟨X, hX⟩ := serializeItems_cons_ex v vs
        have hser : serialize (Json.arr (v :: vs)) ++ rest =
            '[' :: (c :: (t ++ (X ++ (']' :: rest)))) := by
          simp [serialize, hX, hct, List.append_assoc]
        rw [hser]
        have hje : jsonFuel (Json.arr (v :: vs)) = 1 + itemsFuel (v :: vs) := rfl
        have hfuel : itemsFuel (v :: vs) ≤ f := by
          rw [hje] at hf
          omega
        have hpi : parseItems f (c :: (t ++ (X ++ (']' :: rest)))) =
            some (v :: vs, rest) := by
          have hback : c :: (t ++ (X ++ (']' :: rest))) =
              serializeItems (v :: vs) ++ (']' :: rest) := by
            rw [hX, hct]
            simp [List.append_assoc]
          rw [hback]
          exact parseItems_serialize (v :: vs) (by simp) f rest hfuel
        simp +decide only [parseVal, hc, hpi, if_true, if_false, Option.map_some']
        try rfl
  | obj fields =>
    intro f rest hf hrest
    cases f with
    | zero => simp [jsonFuel] at hf
    | succ f =>
      cases fields with
      | nil => rfl
      | cons kv fs =>
        obtain ⟨k, v⟩ := kv
        obtain ⟨Z, hZ⟩ := serializeFields_head k v fs
        have hser : serialize (Json.obj ((k, v) :: fs)) ++ rest =
            lbrace :: ('"' :: (Z ++ (rbrace :: rest))) := by
          simp [serialize, hZ, List.append_assoc]
        rw [hser]
        have hje : jsonFuel (Json.obj ((k, v) :: fs)) = 1 + fieldsFuel ((k, v) :: fs) :=
          rfl
        have hfuel : fieldsFuel ((k, v) :: fs) ≤ f := by
          rw [hje] at hf
          omega
        have hpf : parseFields f ('"' :: (Z ++ (rbrace :: rest))) =
            some ((k, v) :: fs, rest) := by
          have hback : '"' :: (Z ++ (rbrace :: rest)) =
              serializeFields ((k, v) :: fs) ++ (rbrace :: rest) := by
            rw [hZ]
            simp [List.append_assoc]
          rw [hback]
          exact parseFields_serialize ((k, v) :: fs) (by simp) f rest hfuel
        simp +decide only [parseVal, hpf, if_true, if_false, Option.map_some']
        try rfl

theorem parseItems_serialize (items : List Json) (hne : items ≠ []) :
    ∀ (f : Nat) (rest : List Char), itemsFuel items ≤ f →
    parseItems f (serializeItems items ++ (']' :: rest)) = some (items, rest) := by
  cases items with
  | nil => exact absurd rfl hne
  | cons v vs =>
    intro f rest hfuel
    have he : itemsFuel (v :: vs) = 1 + max (jsonFuel v) (itemsFuel vs) := rfl
    rw [he] at hfuel
    have h1 := Nat.le_max_left (jsonFuel v) (itemsFuel vs)
    have h2 := Nat.le_max_right (jsonFuel v) (itemsFuel vs)
    cases f with
    | zero => omega
    | succ f =>
      have hjv : jsonFuel v ≤ f := by omega
      cases vs with
      | nil =>
        have hsi : serializeItems [v] ++ (']' :: rest) =
            serialize v ++ (']' :: rest) := by
          simp [serializeItems]
        rw [hsi]
        have hpv := parseVal_serialize v f (']' :: rest) hjv rfl
        simp only [parseItems, hpv]
      | cons w ws =>
        have hsi : serializeItems (v :: w :: ws) ++ (']' :: rest) =
            serialize v ++ (',' :: (serializeItems (w :: ws) ++ (']' :: rest))) := by
          simp [serializeItems, List.append_assoc]
        rw [hsi]
        have hpv := parseVal_serialize v f
          (',' :: (serializeItems (w :: ws) ++ (']' :: rest))) hjv rfl
        have hiw : itemsFuel (w :: ws) ≤ f := by omega
        have hrec := parseItems_serialize (w :: ws) (by simp) f rest hiw
        simp only [parseItems, hpv, hrec, Option.map_some']

theorem parseFields_serialize (fields : List (String × Json)) (hne : fields ≠ []) :
    ∀ (f : Nat) (rest : List Char), fieldsFuel fields ≤ f →
    parseFields f (serializeFields fields ++ (rbrace :: rest)) = some (fields, rest) := by
  cases fields with
  | nil => exact absurd rfl hne
  | cons kv fs =>
    obtain ⟨k, v⟩ := kv
    intro f rest hfuel
    have he : fieldsFuel ((k, v) :: fs) = 1 + max (jsonFuel v) (fieldsFuel fs) := rfl
    rw [he] at hfuel
    have h1 := Nat.le_max_left (jsonFuel v) (fieldsFuel fs)
    have h2 := Nat.le_max_right (jsonFuel v) (fieldsFuel fs)
    cases f with
    | zero => omega
    | succ f =>
      have hjv : jsonFuel v ≤ f := by omega
      cases fs with
      | nil =>
        have hsf : serializeFields [(k, v)] ++ (rbrace :: rest) =
            '"' :: (escapeList k.data ++
              ('"' :: (':' :: (serialize v ++ (rbrace :: rest))))) := by
          simp [serializeFields, serializeString, List.append_assoc]
        rw [hsf]
        have hlen : k.data.length <
            (escapeList k.data ++
              ('"' :: (':' :: (serialize v ++ (rbrace :: rest))))).length + 1 := by
          have := escapeList_length k.data
          simp only [List.length_append, List.length_cons]
          omega
        have hsb := parseStringBody_escapeList k.data
          ((escapeList k.data ++
            ('"' :: (':' :: (serialize v ++ (rbrace :: rest))))).length + 1)
          (':' :: (serialize v ++ (rbrace :: rest))) hlen
        have hpv := parseVal_serialize v f (rbrace :: rest) hjv rfl
        simp +decide only [parseFields, hsb, hpv, if_true, if_false, Option.map_some']
        try rfl
      | cons f2 fs2 =>
        have hsf : serializeFields ((k, v) :: f2 :: fs2) ++ (rbrace :: rest) =
            '"' :: (escapeList k.data ++
              ('"' :: (':' :: (serialize v ++
                (',' :: (serializeFields (f2 :: fs2) ++ (rbrace :: rest))))))) := by
          simp [serializeFields, serializeString, List.append_assoc]
        rw [hsf]
        have hlen : k.data.length <
            (escapeList k.data ++
              ('"' :: (':' :: (serialize v ++
                (',' :: (serializeFields (f2 :: fs2) ++ (rbrace :: rest))))))).length +
              1 := by
          have := escapeList_length k.data
          simp only [List.length_append, List.length_cons]
          omega
        have hsb := parseStringBody_escapeList k.data
          ((escapeList k.data ++
            ('"' :: (':' :: (serialize v ++
              (',' :: (serializeFields (f2 :: fs2) ++ (rbrace :: rest))))))).length + 1)
          (':' :: (serialize v ++
            (',' :: (serializeFields (f2 :: fs2) ++ (rbrace :: rest))))) hlen
        have hpv := parseVal_serialize v f
          (',' :: (serializeFields (f2 :: fs2) ++ (rbrace :: rest))) hjv rfl
        have hfs : fieldsFuel (f2 :: fs2) ≤ f := by omega
        have hrec := parseFields_serialize (f2 :: fs2) (by simp) f rest hfs
        simp +decide only [parseFields, hsb, hpv, hrec, if_true, if_false,
          Option.map_some']
        try rfl

end


mutual

theorem jsonFuel_le (v : Json) : jsonFuel v ≤ (serialize v).length := by
  cases v with
  | null => decide
  | bool b => cases b <;> decide
  | num n =>
    by_cases h : n < 0
    · have he : jsonFuel (Json.num n) = 1 := rfl
      have hs : serialize (Json.num n) = '-' :: natToChars n.natAbs := by
        simp [serialize, intToChars, h]
      rw [he, hs]
      simp
    · have he : jsonFuel (Json.num n) = 1 := rfl
      have hs : serialize (Json.num n) = natToChars n.toNat := by
        simp [serialize, intToChars, h]
      rw [he, hs]
      have := natToChars_ne_nil n.toNat
      have hlen : 0 < (natToChars n.toNat).length := List.length_pos.mpr this
      omega
  | str s =>
    have he : jsonFuel (Json.str s) = 1 := rfl
    have hs : serialize (Json.str s) = '"' :: (escapeList s.data ++ ['"']) := rfl
    rw [he, hs]
    simp
  | arr items =>
    have he : jsonFuel (Json.arr items) = 1 + itemsFuel items := rfl
    have hs : serialize (Json.arr items) = '[' :: (serializeItems items ++ [']']) := rfl
    rw [he, hs]
    have := itemsFuel_le items
    simp only [List.length_cons, List.length_append, List.length_singleton]
    omega
  | obj fields =>
    have he : jsonFuel (Json.obj fields) = 1 + fieldsFuel fields := rfl
    have hs : serialize (Json.obj fields) =
        lbrace :: (serializeFields fields ++ [rbrace]) := rfl
    rw [he, hs]
    have := fieldsFuel_le fields
    simp only [List.length_cons, List.length_append, List.length_singleton]
    omega

theorem itemsFuel_le (items : List Json) :
    itemsFuel items ≤ (serializeItems items).length + 1 := by
  cases items with
  | nil => decide
  | cons v vs =>
    have he : itemsFuel (v :: vs) = 1 + max (jsonFuel v) (itemsFuel vs) := rfl
    rw [he]
    have h1 := jsonFuel_le v
    have h2 := itemsFuel_le vs
    cases vs with
    | nil =>
      have hs : serializeItems [v] = serialize v := by simp [serializeItems]
      rw [hs]
      have hm : max (jsonFuel v) (itemsFuel []) ≤ (serialize v).length :=
        Nat.max_le.mpr ⟨h1, by simp [itemsFuel]⟩
      omega
    | cons w ws =>
      have hs : serializeItems (v :: w :: ws) =
          serialize v ++ (',' :: serializeItems (w :: ws)) := rfl
      rw [hs]
      simp only [List.length_append, List.length_cons]
      have hm : max (jsonFuel v) (itemsFuel (w :: ws)) ≤
          (serialize v).length + (serializeItems (w :: ws)).length + 1 :=
        Nat.max_le.mpr ⟨by omega, by omega⟩
      omega

theorem fieldsFuel_le (fields : List (String × Json)) :
    fieldsFuel fields ≤ (serializeFields fields).length + 1 := by
  cases fields with
  | nil => decide
  | cons kv fs =>
    obtain ⟨k, v⟩ := kv
    have he : fieldsFuel ((k, v) :: fs) = 1 + max (jsonFuel v) (fieldsFuel fs) := rfl
    rw [he]
    have h1 := jsonFuel_le v
    have h2 := fieldsFuel_le fs
    cases fs with
    | nil =>
      have hs : serializeFields [(k, v)] =
          serializeString k.data ++ (':' :: serialize v) := rfl
      rw [hs]
      simp only [serializeString, List.length_append, List.length_cons]
      have hm : max (jsonFuel v) (fieldsFuel []) ≤ (serialize v).length :=
        Nat.max_le.mpr ⟨h1, by simp [fieldsFuel]⟩
      omega
    | cons f2 fs2 =>
      have hs : serializeFields ((k, v) :: f2 :: fs2) =
          serializeString k.data ++ (':' :: serialize v) ++
            (',' :: serializeFields (f2 :: fs2)) := rfl
      rw [hs]
      simp only [serializeString, List.length_append, List.length_cons]
      have hm : max (jsonFuel v) (fieldsFuel (f2 :: fs2)) ≤
          (serialize v).length + (serializeFields (f2 :: fs2)).length + 1 :=
        Nat.max_le.mpr ⟨by omega, by omega⟩
      omega

end


/-- `JSON.parse` inverts `JSON.stringify` on every structured value. -/
theorem jsonParse_stringify (v : Json) : jsonParse (jsonStringify v) = some v := by
  unfold jsonParse jsonStringify
  have hdata : (String.mk (serialize v)).data = serialize v := rfl
  rw [hdata]
  have h1 : parseVal ((serialize v).length + 1) (serialize v ++ []) = some (v, []) :=
    parseVal_serialize v _ [] (by have := jsonFuel_le v; omega) rfl
  rw [List.append_nil] at h1
  rw [h1]

/-- The raw-fallback read recovers every stringified value exactly. -/
theorem parseOrRaw_stringify (v : Json) : parseOrRaw (jsonStringify v) = v := by
  unfold parseOrRaw
  rw [jsonParse_stringify]
  rfl

/-! ### kv-store lemmas -/

theorem kvFind_kvSet_self (kv : KVStore) (k : String) (e : StoreEntry) :
    kvFind (kvSet kv k e) k = some e := by
  induction kv with
  | nil => simp [kvSet, kvFind]
  | cons p rest ih =>
    obtain ⟨k', e'⟩ := p
    by_cases h : k' = k
    · simp [kvSet, kvFind, h]
    · simp [kvSet, kvFind, h, ih]

theorem kvFind_kvSet_other (kv : KVStore) (k k' : String) (e : StoreEntry)
    (h : k' ≠ k) : kvFind (kvSet kv k e) k' = kvFind kv k' := by
  have hne : k ≠ k' := fun hh => h hh.symm
  induction kv with
  | nil => simp [kvSet, kvFind, hne]
  | cons p rest ih =>
    obtain ⟨k0, e0⟩ := p
    by_cases h0 : k0 = k
    · subst h0
      simp [kvSet, kvFind, hne]
    · simp only [kvSet, if_neg h0]
      by_cases h1 : k0 = k'
      · simp [kvFind, h1]
      · simp [kvFind, h1, ih]

theorem kvFind_kvRemove_other (kv : KVStore) (k k' : String) (h : k' ≠ k) :
    kvFind (kvRemove kv k) k' = kvFind kv k' := by
  induction kv with
  | nil => simp [kvRemove, kvFind]
  | cons p rest ih =>
    obtain ⟨k0, e0⟩ := p
    by_cases h0 : k0 = k
    · subst h0
      have h1 : ¬(k0 = k') := fun hh => h hh.symm
      simp [kvRemove, kvFind, h1, ih]
    · simp only [kvRemove, if_neg h0]
      by_cases h1 : k0 = k'
      · simp [kvFind, h1]
      · simp [kvFind, h1, ih]

theorem str_append_right_inj (p a b : String) (h : p ++ a = p ++ b) : a = b := by
  have hd : (p ++ a).data = (p ++ b).data := by rw [h]
  rw [String.data_append, String.data_append] at hd
  have h2 := List.append_cancel_left hd
  calc a = String.mk a.data := rfl
    _ = String.mk b.data := by rw [h2]
    _ = b := rfl


/-! ### Client-state lemmas -/

theorem set_no_fail_state (st : ClientState) (k : String) (v : Json)
    (ttl : Option Int) (t : Int) :
    (RC.set st k v ttl t false).1 =
      ClientState.mk st.pfx st.defaultTTL
        (kvSet st.kv (st.pfx ++ k)
          (StoreEntry.mk (jsonStringify v)
            (if ttl.getD st.defaultTTL > 0 then some (t + ttl.getD st.defaultTTL)
             else none)))
        st.hits st.misses := by
  simp only [RC.set, Bool.false_eq_true, if_false]
  split
  · rfl
  · rfl

theorem del_no_fail_state (st : ClientState) (k : String) (t : Int) :
    (RC.del st k t false).1 = {st with kv := kvRemove st.kv (st.pfx ++ k)} := rfl

theorem pfx_after_set (st : ClientState) (k : String) (v : Json) (ttl : Option Int)
    (t : Int) : ((RC.set st k v ttl t false).1).pfx = st.pfx := by
  rw [set_no_fail_state]

theorem kvFind_after_set_other (st : ClientState) (k key : String) (v : Json)
    (ttl : Option Int) (t : Int) (hkeys : st.pfx ++ key ≠ st.pfx ++ k) :
    kvFind ((RC.set st k v ttl t false).1).kv (st.pfx ++ key) =
      kvFind st.kv (st.pfx ++ key) := by
  rw [set_no_fail_state]
  exact kvFind_kvSet_other _ _ _ _ hkeys

theorem get_tombstone (st : ClientState) (key : String) (ex t : Int)
    (hts : kvFind st.kv (st.pfx ++ key) =
      some (StoreEntry.mk (jsonStringify (Json.str DELETED)) (some ex)))
    (ht : t < ex) :
    RC.get st key t false = some (Json.str DELETED) := by
  unfold RC.get
  simp only [kvGet, hts, Bool.false_eq_true, if_false, ht, if_true, if_pos ht]
  rw [parseOrRaw_stringify]

theorem fetch_tombstone (st : ClientState) (key : String) (ex : Int)
    (q : Option Json) (ttl : Option Int) (t : Int)
    (hts : kvFind st.kv (st.pfx ++ key) =
      some (StoreEntry.mk (jsonStringify (Json.str DELETED)) (some ex)))
    (ht : t < ex) :
    RC.fetch st key q ttl t false false =
      (none, {st with hits := st.hits + 1}, false) := by
  have hget := get_tombstone st key ex t hts ht
  unfold RC.fetch
  rw [hget]
  simp [DELETED]

theorem runOp_tombstone (st : ClientState) (key : String) (ex : Int)
    (op : CacheOp) (t : Int)
    (hts : kvFind st.kv (st.pfx ++ key) =
      some (StoreEntry.mk (jsonStringify (Json.str DELETED)) (some ex)))
    (hw : CacheOp.writesKey key op = false) (ht : t < ex) :
    kvFind (runOp st op t).kv ((runOp st op t).pfx ++ key) =
      some (StoreEntry.mk (jsonStringify (Json.str DELETED)) (some ex))
    ∧ (runOp st op t).pfx = st.pfx := by
  cases op with
  | opGet k => exact ⟨hts, rfl⟩
  | opSet k v ttl =>
    have hk : ¬(k = key) := by simpa [CacheOp.writesKey] using hw
    have hkeys : st.pfx ++ key ≠ st.pfx ++ k := fun hh =>
      hk (str_append_right_inj _ _ _ hh).symm
    constructor
    · show kvFind ((RC.set st k v ttl t false).1).kv
        (((RC.set st k v ttl t false).1).pfx ++ key) = _
      rw [pfx_after_set, kvFind_after_set_other st k key v ttl t hkeys]
      exact hts
    · exact pfx_after_set st k v ttl t
  | opStore k v ttl =>
    have hk : ¬(k = key) := by simpa [CacheOp.writesKey] using hw
    have hkeys : st.pfx ++ key ≠ st.pfx ++ k := fun hh =>
      hk (str_append_right_inj _ _ _ hh).symm
    constructor
    · show kvFind ((RC.set st k v ttl t false).1).kv
        (((RC.set st k v ttl t false).1).pfx ++ key) = _
      rw [pfx_after_set, kvFind_after_set_other st k key v ttl t hkeys]
      exact hts
    · exact pfx_after_set st k v ttl t
  | opDel k =>
    have hk : ¬(k = key) := by simpa [CacheOp.writesKey] using hw
    have hkeys : st.pfx ++ key ≠ st.pfx ++ k := fun hh =>
      hk (str_append_right_inj _ _ _ hh).symm
    constructor
    · show kvFind ((RC.del st k t false).1).kv
        (((RC.del st k t false).1).pfx ++ key) = _
      rw [del_no_fail_state]
      exact (kvFind_kvRemove_other _ _ _ hkeys).trans hts
    · rfl
  | opRemove k soft =>
    have hk : ¬(k = key) := by simpa [CacheOp.writesKey] using hw
    have hkeys : st.pfx ++ key ≠ st.pfx ++ k := fun hh =>
      hk (str_append_right_inj _ _ _ hh).symm
    cases soft with
    | true =>
      constructor
      · show kvFind ((RC.set st k (Json.str DELETED) none t false).1).kv
          (((RC.set st k (Json.str DELETED) none t false).1).pfx ++ key) = _
        rw [pfx_after_set, kvFind_after_set_other st k key (Json.str DELETED) none t hkeys]
        exact hts
      · exact pfx_after_set st k (Json.str DELETED) none t
    | false =>
      constructor
      · show kvFind ((RC.del st k t false).1).kv
          (((RC.del st k t false).1).pfx ++ key) = _
        rw [del_no_fail_state]
        exact (kvFind_kvRemove_other _ _ _ hkeys).trans hts
      · rfl
  | opFetch k q ttl =>
    by_cases hk : k = key
    · subst hk
      have hfe := fetch_tombstone st k ex q ttl t hts ht
      constructor
      · show kvFind ((RC.fetch st k q ttl t false false).2.1).kv
          (((RC.fetch st k q ttl t false false).2.1).pfx ++ k) = _
        rw [hfe]
        exact hts
      · show ((RC.fetch st k q ttl t false false).2.1).pfx = st.pfx
        rw [hfe]
    · have hkeys : st.pfx ++ key ≠ st.pfx ++ k := fun hh =>
        hk (str_append_right_inj _ _ _ hh).symm
      cases hg : RC.get st k t false with
      | some v =>
        have hstate : (RC.fetch st k q ttl t false false).2.1 =
            {st with hits := st.hits + 1} := by
          unfold RC.fetch
          rw [hg]
          cases v with
          | str s =>
            by_cases hsd : s = DELETED
            · simp [hsd]
            · simp [hsd]
          | null => rfl
          | bool b => rfl
          | num n => rfl
          | arr items => rfl
          | obj fields => rfl
        constructor
        · show kvFind ((RC.fetch st k q ttl t false false).2.1).kv
            (((RC.fetch st k q ttl t false false).2.1).pfx ++ key) = _
          rw [hstate]
          exact hts
        · show ((RC.fetch st k q ttl t false false).2.1).pfx = st.pfx
          rw [hstate]
      | none =>
        cases q with
        | none =>
          have hstate : (RC.fetch st k none ttl t false false).2.1 =
              {st with misses := st.misses + 1} := by
            unfold RC.fetch
            rw [hg]
          constructor
          · show kvFind ((RC.fetch st k none ttl t false false).2.1).kv
              (((RC.fetch st k none ttl t false false).2.1).pfx ++ key) = _
            rw [hstate]
            exact hts
          · show ((RC.fetch st k none ttl t false false).2.1).pfx = st.pfx
            rw [hstate]
        | some d =>
          have hstate : (RC.fetch st k (some d) ttl t false false).2.1 =
              (RC.set {st with misses := st.misses + 1} k d ttl t false).1 := by
            unfold RC.fetch
            rw [hg]
            rfl
          constructor
          · show kvFind ((RC.fetch st k (some d) ttl t false false).2.1).kv
              (((RC.fetch st k (some d) ttl t false false).2.1).pfx ++ key) = _
            rw [hstate, pfx_after_set]
            have hkeys2 : ({st with misses := st.misses + 1} : ClientState).pfx ++ key ≠
                ({st with misses := st.misses + 1} : ClientState).pfx ++ k := hkeys
            rw [kvFind_after_set_other _ k key d ttl t hkeys2]
            exact hts
          · show ((RC.fetch st k (some d) ttl t false false).2.1).pfx = st.pfx
            rw [hstate, pfx_after_set]

theorem runOps_tombstone (ops : List (CacheOp × Int)) (st : ClientState)
    (key : String) (ex : Int)
    (hts : kvFind st.kv (st.pfx ++ key) =
      some (StoreEntry.mk (jsonStringify (Json.str DELETED)) (some ex)))
    (hops : ∀ p ∈ ops, CacheOp.writesKey key p.1 = false)
    (htimes : ∀ p ∈ ops, p.2 < ex) :
    kvFind (runOps st ops).kv ((runOps st ops).pfx ++ key) =
      some (StoreEntry.mk (jsonStringify (Json.str DELETED)) (some ex)) := by
  induction ops generalizing st with
  | nil => exact hts
  | cons p rest ih =>
    obtain ⟨op, t⟩ := p
    have h1 := runOp_tombstone st key ex op t hts
      (hops (op, t) (by simp)) (htimes (op, t) (by simp))
    simp only [runOps]
    exact ih (runOp st op t) h1.1
      (fun q hq => hops q (by simp [hq]))
      (fun q hq => htimes q (by simp [hq]))

/-! ### Claims C4 and C9: soft-delete tombstones -/

theorem remove_soft_state (st : ClientState) (key : String) (t0 : Int)
    (httl : 0 < st.defaultTTL) :
    RC.remove st key true t0 false =
      ClientState.mk st.pfx st.defaultTTL
        (kvSet st.kv (st.pfx ++ key)
          (StoreEntry.mk (jsonStringify (Json.str DELETED))
            (some (t0 + st.defaultTTL))))
        st.hits st.misses := by
  show (RC.set st key (Json.str DELETED) none t0 false).1 = _
  rw [set_no_fail_state]
  simp only [Option.getD_none]
  rw [if_pos httl]

/-- Claim C4 as stated is false on the code: the tombstone is written by
`set` with no explicit TTL, so it carries `defaultTTL`; once that expires, a
fetch misses and invokes the compute function even though no hard delete or
overwrite ever happened.  Concretely: `defaultTTL = 3600`, soft delete at
`t = 0`, fetch at `t = 3600` invokes the query, returns its value, and
counts a miss. -/
theorem soft_delete_claim_fails_at_ttl_expiry :
    (RC.fetch (RC.remove (ClientState.mk "entrolytics:" 3600 [] 0 0) "k" true 0 false)
      "k" (some (Json.num 1)) none 3600 false false).2.2 = true
    ∧ (RC.fetch (RC.remove (ClientState.mk "entrolytics:" 3600 [] 0 0) "k" true 0 false)
        "k" (some (Json.num 1)) none 3600 false false).1 = some (Json.num 1)
    ∧ (RC.fetch (RC.remove (ClientState.mk "entrolytics:" 3600 [] 0 0) "k" true 0 false)
        "k" (some (Json.num 1)) none 3600 false false).2.1.misses = 1 :=
  ⟨rfl, rfl, rfl⟩

/-- Claim C4, amended: after `remove(key, soft := true)` at `t0`, every
subsequent `fetch(key, compute)` returns `null`, increments the hit counter
(not the miss counter), never invokes `compute`, and leaves the store
untouched — until a hard delete or an overwrite of the key occurs **or the
tombstone's `defaultTTL` expires** (all operations happening before
`t0 + defaultTTL`; the interleaved operations may read any key and write any
other key). -/
theorem soft_delete_suppresses_fetch (st : ClientState) (key : String) (t0 : Int)
    (ops : List (CacheOp × Int)) (q : Option Json) (ttl : Option Int) (tf : Int)
    (httl : 0 < st.defaultTTL)
    (hops : ∀ p ∈ ops, CacheOp.writesKey key p.1 = false)
    (htimes : ∀ p ∈ ops, p.2 < t0 + st.defaultTTL)
    (htf : tf < t0 + st.defaultTTL) :
    (RC.fetch (runOps (RC.remove st key true t0 false) ops) key q ttl tf
        false false).1 = none
    ∧ (RC.fetch (runOps (RC.remove st key true t0 false) ops) key q ttl tf
        false false).2.2 = false
    ∧ (RC.fetch (runOps (RC.remove st key true t0 false) ops) key q ttl tf
        false false).2.1.hits =
        (runOps (RC.remove st key true t0 false) ops).hits + 1
    ∧ (RC.fetch (runOps (RC.remove st key true t0 false) ops) key q ttl tf
        false false).2.1.misses =
        (runOps (RC.remove st key true t0 false) ops).misses
    ∧ (RC.fetch (runOps (RC.remove st key true t0 false) ops) key q ttl tf
        false false).2.1.kv =
        (runOps (RC.remove st key true t0 false) ops).kv := by
  have h0 : kvFind (RC.remove st key true t0 false).kv
      ((RC.remove st key true t0 false).pfx ++ key) =
      some (StoreEntry.mk (jsonStringify (Json.str DELETED))
        (some (t0 + st.defaultTTL))) := by
    rw [remove_soft_state st key t0 httl]
    exact kvFind_kvSet_self _ _ _
  have h2 := runOps_tombstone ops (RC.remove st key true t0 false) key
    (t0 + st.defaultTTL) h0 hops htimes
  have h3 := fetch_tombstone (runOps (RC.remove st key true t0 false) ops) key
    (t0 + st.defaultTTL) q ttl tf h2 htf
  rw [h3]
  exact ⟨rfl, rfl, rfl, rfl, rfl⟩

/-- Concrete instance of the amended soft-delete property: a soft delete at
time 0 with `defaultTTL = 3600`, three interleaved operations (a read of the
key, a write of another key, a fetch of the key itself), then a fetch at
time 10: null result, no compute, a hit. -/
theorem soft_delete_suppresses_fetch_witness :
    (RC.fetch (runOps
        (RC.remove (ClientState.mk "entrolytics:" 3600 [] 0 0) "k" true 0 false)
        [(CacheOp.opGet "k", 1), (CacheOp.opSet "other" Json.null none, 2),
         (CacheOp.opFetch "k" (some (Json.num 5)) none, 3)])
      "k" (some (Json.num 7)) none 10 false false).1 = none
    ∧ (RC.fetch (runOps
        (RC.remove (ClientState.mk "entrolytics:" 3600 [] 0 0) "k" true 0 false)
        [(CacheOp.opGet "k", 1), (CacheOp.opSet "other" Json.null none, 2),
         (CacheOp.opFetch "k" (some (Json.num 5)) none, 3)])
      "k" (some (Json.num 7)) none 10 false false).2.2 = false :=
  ⟨(soft_delete_suppresses_fetch (ClientState.mk "entrolytics:" 3600 [] 0 0) "k" 0
      [(CacheOp.opGet "k", 1), (CacheOp.opSet "other" Json.null none, 2),
       (CacheOp.opFetch "k" (some (Json.num 5)) none, 3)]
      (some (Json.num 7)) none 10 (by decide) (by decide) (by decide) (by decide)).1,
   (soft_delete_suppresses_fetch (ClientState.mk "entrolytics:" 3600 [] 0 0) "k" 0
      [(CacheOp.opGet "k", 1), (CacheOp.opSet "other" Json.null none, 2),
       (CacheOp.opFetch "k" (some (Json.num 5)) none, 3)]
      (some (Json.num 7)) none 10 (by decide) (by decide) (by decide) (by decide)).2.1⟩

/-- Claim C9: `remove(key, soft := true)` writes the tombstone via `set`
with no explicit TTL, so the tombstone entry carries `defaultTTL` (3600
unless configured otherwise) as its expiry; from `t0 + defaultTTL` on, the
key reads as absent and `fetch` treats it as a miss again (the query is
invoked and the miss counter is incremented). -/
theorem tombstone_expires_after_defaultTTL (st : ClientState) (key : String)
    (t0 t : Int) (q : Option Json) (ttl : Option Int)
    (httl : 0 < st.defaultTTL) (ht : t0 + st.defaultTTL ≤ t) :
    kvFind (RC.remove st key true t0 false).kv (st.pfx ++ key) =
      some (StoreEntry.mk (jsonStringify (Json.str DELETED))
        (some (t0 + st.defaultTTL)))
    ∧ RC.get (RC.remove st key true t0 false) key t false = none
    ∧ (RC.fetch (RC.remove st key true t0 false) key q ttl t false false).2.2 = true
    ∧ (RC.fetch (RC.remove st key true t0 false) key q ttl t
        false false).2.1.misses = st.misses + 1 := by
  have hrm := remove_soft_state st key t0 httl
  have h0 : kvFind (RC.remove st key true t0 false).kv (st.pfx ++ key) =
      some (StoreEntry.mk (jsonStringify (Json.str DELETED))
        (some (t0 + st.defaultTTL))) := by
    rw [hrm]
    exact kvFind_kvSet_self _ _ _
  have hget : RC.get (RC.remove st key true t0 false) key t false = none := by
    unfold RC.get
    rw [hrm]
    simp only [Bool.false_eq_true, if_false, kvGet, kvFind_kvSet_self]
    rw [if_neg (by omega : ¬(t < t0 + st.defaultTTL))]
  refine ⟨h0, hget, ?_, ?_⟩
  · unfold RC.fetch
    rw [hget]
    cases q with
    | none => rfl
    | some d => rfl
  · unfold RC.fetch
    rw [hget]
    cases q with
    | none =>
      show ({(RC.remove st key true t0 false) with
        misses := (RC.remove st key true t0 false).misses + 1}).misses = st.misses + 1
      rw [hrm]
    | some d =>
      show ((RC.store {(RC.remove st key true t0 false) with
        misses := (RC.remove st key true t0 false).misses + 1} key d ttl t
          false).1).misses = st.misses + 1
      show ((RC.set {(RC.remove st key true t0 false) with
        misses := (RC.remove st key true t0 false).misses + 1} key d ttl t
          false).1).misses = st.misses + 1
      rw [set_no_fail_state]
      show (RC.remove st key true t0 false).misses + 1 = st.misses + 1
      rw [hrm]

/-- Concrete instance of C9: soft delete at `t0 = 0` with the default
`defaultTTL = 3600`; at `t = 3600` the key reads as absent and a fetch is a
miss that invokes its query. -/
theorem tombstone_expires_after_defaultTTL_witness :
    RC.get (RC.remove (ClientState.mk "entrolytics:" 3600 [] 0 0) "k" true 0 false)
      "k" 3600 false = none
    ∧ (RC.fetch (RC.remove (ClientState.mk "entrolytics:" 3600 [] 0 0) "k" true 0
        false) "k" (some (Json.num 2)) none 3600 false false).2.2 = true :=
  ⟨(tombstone_expires_after_defaultTTL (ClientState.mk "entrolytics:" 3600 [] 0 0)
      "k" 0 3600 (some (Json.num 2)) none (by decide) (by decide)).2.1,
   (tombstone_expires_after_defaultTTL (ClientState.mk "entrolytics:" 3600 [] 0 0)
      "k" 0 3600 (some (Json.num 2)) none (by decide) (by decide)).2.2.1⟩

/-! ### Claim C8: store/get round trip -/

/-- Claim C8: for every key and every JSON-serializable structured value
(no duplicate object keys anywhere — the JS-representable values),
`store(key, value)` followed by `get(key)` returns a value deep-equal to
`value`, whatever TTL was requested. -/
theorem store_get_roundtrip (st : ClientState) (key : String) (v : Json)
    (ttl : Option Int) (t : Int) (hwf : Json.wf v = true) :
    RC.get ((RC.store st key v ttl t false).1) key t false = some v := by
  show RC.get ((RC.set st key v ttl t false).1) key t false = some v
  rw [set_no_fail_state]
  unfold RC.get
  simp only [Bool.false_eq_true, if_false, kvGet, kvFind_kvSet_self]
  by_cases h : ttl.getD st.defaultTTL > 0
  · rw [if_pos h]
    simp only []
    rw [if_pos (by omega : t < t + ttl.getD st.defaultTTL)]
    show some (parseOrRaw (jsonStringify v)) = some v
    rw [parseOrRaw_stringify]
  · rw [if_neg h]
    show some (parseOrRaw (jsonStringify v)) = some v
    rw [parseOrRaw_stringify]

/-- Concrete instance of the round trip on a nested structured value. -/
theorem store_get_roundtrip_witness :
    RC.get ((RC.store (ClientState.mk "entrolytics:" 3600 [] 0 0) "k"
        (Json.obj [("a", Json.num 1), ("b", Json.str "x")]) none 0 false).1)
      "k" 0 false =
      some (Json.obj [("a", Json.num 1), ("b", Json.str "x")]) :=
  store_get_roundtrip (ClientState.mk "entrolytics:" 3600 [] 0 0) "k"
    (Json.obj [("a", Json.num 1), ("b", Json.str "x")]) none 0 (by decide)

/-! ### Claim C5: the error-handling boundary of the key-value surface -/

/-- Claim C5 as stated is false on the code: `ttl` converts a raised store
error to `-1` (redis's "no TTL" sentinel), not to `0` (nor `null`/`false`),
and `zRange` converts it to the empty array. -/
theorem ttl_error_default_counterexample :
    RC.ttl (Except.error ()) = -1 ∧ ¬((-1 : Int) = 0)
    ∧ RC.zRange (Except.error ()) = [] :=
  ⟨rfl, by decide, rfl⟩

/-- Claim C5, amended: every store-facing cache operation catches a raised
store error and returns a safe default — `null` for `get`/`set`, `0` for
`del` and the `incr` family and the sorted-set write/count operations,
`false` for `expire`/`exists`, `-1` for `ttl`, and `[]` for `zRange` — never
propagating the error to the caller (the wrappers are total). -/
theorem store_error_safe_defaults (st : ClientState) (key : String) (v : Json)
    (ttl : Option Int) (t : Int) :
    RC.get st key t true = none
    ∧ RC.set st key v ttl t true = (st, none)
    ∧ RC.del st key t true = (st, 0)
    ∧ RC.incr (Except.error ()) = 0
    ∧ RC.incrBy (Except.error ()) = 0
    ∧ RC.decr (Except.error ()) = 0
    ∧ RC.decrBy (Except.error ()) = 0
    ∧ RC.expire (Except.error ()) = false
    ∧ RC.ttl (Except.error ()) = -1
    ∧ RC.existsKey (Except.error ()) = false
    ∧ RC.zAdd (Except.error ()) = 0
    ∧ RC.zRemRangeByScore (Except.error ()) = 0
    ∧ RC.zCard (Except.error ()) = 0
    ∧ RC.zRange (Except.error ()) = [] :=
  ⟨rfl, rfl, rfl, rfl, rfl, rfl, rfl, rfl, rfl, rfl, rfl, rfl, rfl, rfl⟩

/-! ### Claim C6: the simple counter limiter -/

/-- Claim C6: the counter limiter increments, sets the key's expiry to
`windowSeconds` exactly when the post-increment value is 1, and returns
`true` (limited) iff the post-increment value exceeds `limit`; on any store
failure (of the `INCR` itself or of the `EXPIRE` after a first increment) it
fails open and returns `false`. -/
theorem simple_counter_limiter_spec (count0 : Int) (ttl0 : Option Int)
    (limit windowSeconds : Int) :
    RC.rateLimit count0 ttl0 limit windowSeconds false false =
      (decide (count0 + 1 > limit), count0 + 1,
        if count0 + 1 = 1 then some windowSeconds else ttl0)
    ∧ (∀ e : Bool, RC.rateLimit count0 ttl0 limit windowSeconds true e =
        (false, count0, ttl0))
    ∧ RC.rateLimit count0 ttl0 limit windowSeconds false true =
        (if count0 + 1 = 1 then (false, count0 + 1, ttl0)
         else (decide (count0 + 1 > limit), count0 + 1, ttl0)) := by
  refine ⟨?_, fun e => rfl, ?_⟩
  · simp only [RC.rateLimit, Bool.false_eq_true, if_false]
    split
    · rfl
    · rfl
  · simp only [RC.rateLimit, Bool.false_eq_true, if_false]
    split
    · rfl
    · rfl

end RedisClientSpec
